import Mathlib

/-!
Verification of the BismuthExplorer freshness-maintenance core: a shallow
embedding of the derived-aggregate maintenance engine (`toolsdb.py`) and of
the live-state synchronizer (`explorebis.py`), with theorems settling the
behavioural claims about them.

Conventions of the embedding:
* SQLite tables with a `TEXT PRIMARY KEY` become association lists whose key
  is the address; `INSERT OR IGNORE` becomes insert-if-key-absent and
  `DELETE ... WHERE address = ?` becomes a filter on the key.
* `REAL` money amounts become `ℚ`, block heights become `ℤ`.
* The external Ledger Query Interface (`toolsp`) is a parameter: the
  transaction table is a list ordered by recency, `toolsp.latest()[0]` is an
  integer, and `toolsp.refresh(addr, 2)` is a function
  `Addr → Option AddrStats` where `none` models the call raising.
-/

namespace BisExplorer

/-- Ledger account identifier (a string in the source). -/
abbrev Addr := String

/-- One row of the external ledger's `transactions` table, fields in the
column order of the Bismuth ledger schema, which is also the field order of
the spec's LedgerTransaction: `(block_height, timestamp, address, recipient,
amount, signature, public_key, block_hash, fee, reward, operation,
openfield)`.  A positional access `row[2]` in the source therefore reads
`address` (the sender) and `row[3]` reads `recipient`. -/
structure Tx where
  block_height : Int
  timestamp : ℚ
  address : Addr
  recipient : Addr
  amount : ℚ
  signature : String
  public_key : String
  block_hash : String
  fee : ℚ
  reward : ℚ
  operation : String
  openfield : String
deriving DecidableEq, Repr

/-- Convenience constructor: a transaction with the given sender and
recipient and neutral values everywhere else. -/
def mkTx (sender recip : Addr) : Tx :=
  ⟨0, 0, sender, recip, 0, "", "", "", 0, 0, "", ""⟩

/-- Per-address statistics tuple returned by `toolsp.refresh(addr, 2)`,
fields in positional order: the source reads `record[4]` (balance),
`record[2]` (rewards), `record[8]` (alias), `record[5]` (blatest),
`record[6]` (bfirst), `record[7]` (blockcount). -/
structure AddrStats where
  credits : ℚ
  debits : ℚ
  rewards : ℚ
  fees : ℚ
  balance : ℚ
  blatest : Int
  bfirst : Int
  blockcount : Int
  aliasName : String
deriving DecidableEq, Repr

/-- Row of the `richlist` table: `(address TEXT PRIMARY KEY, balance REAL,
alias TEXT)`; `aliasName` stands for the source's `alias` column, which is a
reserved word in Lean. -/
structure RichRow where
  address : Addr
  balance : ℚ
  aliasName : String
deriving DecidableEq, Repr

/-- Row of the `minerlist` table: `(address TEXT PRIMARY KEY, blatest INT,
bfirst INT, blockcount INT, treward REAL, mname TEXT)`. -/
structure MinerRow where
  address : Addr
  blatest : Int
  bfirst : Int
  blockcount : Int
  treward : ℚ
  mname : String
deriving DecidableEq, Repr

/-- The aggregate store `tools.db`: both tables. -/
structure ToolsDb where
  richlist : List RichRow
  minerlist : List MinerRow
deriving DecidableEq, Repr

/-- State of `tools.db` right after `init_tools_db`: both tables recreated
empty. -/
def ToolsDb.empty : ToolsDb := ⟨[], []⟩

/-- Whether the richlist already holds a row for the given primary key. -/
def richContains (t : List RichRow) (a : Addr) : Bool :=
  t.any (fun r => r.address == a)

/-- Whether the minerlist already holds a row for the given primary key. -/
def minerContains (t : List MinerRow) (a : Addr) : Bool :=
  t.any (fun r => r.address == a)

/-- Semantics of one `INSERT OR IGNORE INTO richlist` row: ignored when the
primary key is already present. -/
def richInsertIgnore (t : List RichRow) (r : RichRow) : List RichRow :=
  if richContains t r.address then t else t ++ [r]

/-- Semantics of one `INSERT OR IGNORE INTO minerlist` row. -/
def minerInsertIgnore (t : List MinerRow) (m : MinerRow) : List MinerRow :=
  if minerContains t m.address then t else t ++ [m]

/-- The `executemany` insert of all gathered rich rows, in order. -/
def richInsertAll (t : List RichRow) (rows : List RichRow) : List RichRow :=
  rows.foldl richInsertIgnore t

/-- The `executemany` insert of all gathered miner rows, in order. -/
def minerInsertAll (t : List MinerRow) (rows : List MinerRow) : List MinerRow :=
  rows.foldl minerInsertIgnore t

/-- One `DELETE FROM richlist WHERE address = ?`. -/
def richDelete (t : List RichRow) (a : Addr) : List RichRow :=
  t.filter (fun r => !(r.address == a))

/-- One `DELETE FROM minerlist WHERE address = ?`. -/
def minerDelete (t : List MinerRow) (a : Addr) : List MinerRow :=
  t.filter (fun m => !(m.address == a))

/-- The `executemany` delete over the whole touched-address list. -/
def richDeleteAll (t : List RichRow) (addrs : List Addr) : List RichRow :=
  addrs.foldl richDelete t

/-- The `executemany` delete over the whole touched-address list. -/
def minerDeleteAll (t : List MinerRow) (addrs : List Addr) : List MinerRow :=
  addrs.foldl minerDelete t

/-- Insertion into the Python `set` of seen addresses, modelled as a
duplicate-free list keeping first-insertion order. -/
def insertAddr (seen : List Addr) (a : Addr) : List Addr :=
  if a ∈ seen then seen else seen ++ [a]

/-- The `DISTINCT` of `gather_all_addresses`: first occurrences kept. -/
def distinctList (xs : List Addr) : List Addr :=
  xs.foldl insertAddr []

/-- Embedding of `gather_all_addresses(conn)`: all distinct recipients of
transactions with non-zero amount or reward
(`SELECT DISTINCT recipient FROM transactions WHERE amount != 0 OR reward != 0`). -/
def gather_all_addresses (txs : List Tx) : List Addr :=
  distinctList ((txs.filter (fun t => !(t.amount == 0) || !(t.reward == 0))).map
    (fun t => t.recipient))

/-- The two pseudo-account sink names excluded by `gather_delta_addresses`
(compared against the lower-cased column value). -/
def pseudo_sinks : List String := ["hypernode payouts", "development reward"]

/-- Lower-casing of a string, the semantics of Python `str.lower()` on the
ASCII values compared here; written over the character list so that it
evaluates by kernel reduction. -/
def lowerString (s : String) : String := ⟨s.data.map Char.toLower⟩

/-- Processing of one row of the `gather_delta_addresses` loop: the source
reads `row[2]` — the `address` (sender) column — into its local named
`recipient`, adds it unless empty or a pseudo-sink, then reads `row[3]` —
the `recipient` column — into its local named `sender` and adds it unless
empty. -/
def addTouched (seen : List Addr) (row : Tx) : List Addr :=
  let seen1 :=
    if row.address ≠ "" ∧ lowerString row.address ∉ pseudo_sinks then
      insertAddr seen row.address
    else seen
  if row.recipient ≠ "" then insertAddr seen1 row.recipient else seen1

/-- Embedding of `gather_delta_addresses(conn, limit)`: the `transactions`
list is assumed ordered by `timestamp DESC` (the `ORDER BY` of the query),
so `LIMIT ?` is `List.take`. -/
def gather_delta_addresses (txs : List Tx) (limit : Nat) : List Addr :=
  (txs.take limit).foldl addTouched []

/-- The read-only view of the world consumed by `updatedb`: the ledger's
transaction table ordered most-recent-first, `toolsp.latest()[0]`, and
`toolsp.refresh(addr, 2)` where `none` models the call raising (the
per-address `except` branch). -/
structure LedgerView where
  txs : List Tx
  latest : Int
  refresh : Addr → Option AddrStats

/-- The `block_limit = latest_block - last_block` computation of `updatedb`. -/
def block_limit (latest last_block : Int) : Int := latest - last_block

/-- The row-gathering loop of `updatedb` (lines 142-166): for each address,
fetch its statistics (skipping the address when the fetch raises), append a
rich row when `balance > bis_limit` and a miner row when `reward > 0`. -/
def buildRows (bis_limit : ℚ) (refresh : Addr → Option AddrStats) :
    List Addr → List RichRow × List MinerRow
  | [] => ([], [])
  | addr :: rest =>
    let tail := buildRows bis_limit refresh rest
    match refresh addr with
    | none => tail
    | some record =>
      (if record.balance > bis_limit then
          ⟨addr, record.balance, record.aliasName⟩ :: tail.1
        else tail.1,
       if record.rewards > 0 then
          ⟨addr, record.blatest, record.bfirst, record.blockcount,
            record.rewards, record.aliasName⟩ :: tail.2
        else tail.2)

/-- The write phase of an incremental `updatedb` (lines 130-179): delete all
rows of the touched addresses from both tables, then `INSERT OR IGNORE` the
freshly built rows. -/
def applyDelta (bis_limit : ℚ) (refresh : Addr → Option AddrStats)
    (addresses : List Addr) (db : ToolsDb) : ToolsDb :=
  let deleted : ToolsDb :=
    ⟨richDeleteAll db.richlist addresses, minerDeleteAll db.minerlist addresses⟩
  let rows := buildRows bis_limit refresh addresses
  ⟨richInsertAll deleted.richlist rows.1, minerInsertAll deleted.minerlist rows.2⟩

/-- Embedding of `updatedb(do_full, last_block, db_path)`; returns the
boolean the function returns together with the resulting `tools.db` state.
In full mode `init_tools_db` recreates the empty store before anything else;
in incremental mode a non-positive `block_limit` or an empty address list
returns `False` with the store untouched. -/
def updatedb (bis_limit : ℚ) (do_full : Bool) (ledger : LedgerView)
    (last_block : Int) (db : ToolsDb) : Bool × ToolsDb :=
  if do_full then
    let db0 := ToolsDb.empty
    let addresses := gather_all_addresses ledger.txs
    if addresses = [] then (false, db0)
    else
      let rows := buildRows bis_limit ledger.refresh addresses
      (true, ⟨richInsertAll db0.richlist rows.1, minerInsertAll db0.minerlist rows.2⟩)
  else
    let bl := block_limit ledger.latest last_block
    if bl ≤ 0 then (false, db)
    else
      let addresses := gather_delta_addresses ledger.txs bl.toNat
      if addresses = [] then (false, db)
      else (true, applyDelta bis_limit ledger.refresh addresses db)

/-- A cycle-fatal failure point of `updatedb`: the ledger source connection
failing to open (line 113), or the aggregate store being unopenable or
unwritable (line 130 onwards; the `with` context manager rolls the
transaction back on an exception). -/
inductive CycleFailure where
  | ledgerOpen
  | aggregateWrite
deriving DecidableEq, Repr

/-- The persisted `tools.db` state after a run of `updatedb` in which the
given failure (if any) occurs.  The ordering reflects the source: in full
mode `init_tools_db(db_path)` deletes and recreates the store (line 110)
before the ledger source is opened (line 113), so either failure strikes
after the store has already been emptied; in incremental mode no write has
happened before the ledger open, and an aggregate-store failure aborts the
uncommitted transaction. -/
def updatedbFallible (bis_limit : ℚ) (do_full : Bool) (ledger : LedgerView)
    (last_block : Int) (db : ToolsDb) (failure : Option CycleFailure) : ToolsDb :=
  let db0 := if do_full then ToolsDb.empty else db
  match failure with
  | some .ledgerOpen => db0
  | some .aggregateWrite => db0
  | none => (updatedb bis_limit do_full ledger last_block db).2

/-- The checkpoint floor read each cycle by `buildtoolsdb` (line 203):
`int(f.readline().strip()) - 200`. -/
def checkpointFloor (stored : Int) : Int := stored - 200

/-- One scheduling step of `buildtoolsdb`'s main loop over the checkpoint
file, for a ledger whose observed latest height is `latest`: the floor
passed to `updatedb` is `stored - 200`, the file is rewritten with `latest`,
and `updatedb` computes the incremental window `latest - floor`.  Returns
`(window, new stored checkpoint)`. -/
def checkpointCycle (stored latest : Int) : Int × Int :=
  (block_limit latest (checkpointFloor stored), latest)

/-- Fate of one pass of `buildtoolsdb`'s `while True` loop. -/
inductive LoopFate where
  /-- The pass completed; the loop sleeps 20 minutes and runs again. -/
  | sleepsAndContinues
  /-- An exception propagated out of the loop body: the loop body has no
  handler, so it escapes the `while True` loop and the process exits. -/
  | processExits
deriving DecidableEq, Repr

/-- Result of one `buildtoolsdb` loop pass: the fate of the loop, the
stored checkpoint value, and the persisted `tools.db` state. -/
structure ToolsCycleResult where
  fate : LoopFate
  stored : Int
  db : ToolsDb
deriving DecidableEq, Repr

/-- One pass of `buildtoolsdb`'s main loop (toolsdb.py lines 196-213) with
a possible cycle-fatal failure inside `updatedb`: the floor `stored - 200`
is read, the checkpoint file is rewritten with the observed latest height
(line 206-208, before `updatedb` runs), and `updatedb` executes.  The loop
body has no exception handler, so a cycle-fatal failure propagates out of
the `while True` loop and the process exits; only a failure-free pass
sleeps and continues to the next schedule. -/
def buildtoolsdb_pass (bis_limit : ℚ) (ledger : LedgerView) (stored : Int)
    (db : ToolsDb) (failure : Option CycleFailure) : ToolsCycleResult :=
  let last_blk := checkpointFloor stored
  let stored' := ledger.latest
  let db' := updatedbFallible bis_limit false ledger last_blk db failure
  match failure with
  | some _ => ⟨.processExits, stored', db'⟩
  | none => ⟨.sleepsAndContinues, stored', db'⟩

/-!
Embedding of the live-state synchronizer of `explorebis.py`.
-/

/-- A price mapping as stored in `price_info.txt`: currency code to value. -/
abbrev PriceMap := List (String × ℚ)

/-- The currency keys of the default price mapping. -/
def supportedCurrencies : List String := ["BTC", "USD", "EUR", "GBP", "CNY", "AUD"]

/-- The hard-coded default price mapping of `explorebis.py` line 144:
`{"BTC": 0.001e-05, "USD": 0.01, "EUR": 0.01, "GBP": 0.01, "CNY": 0.01,
"AUD": 0.01}` (note `0.001e-05 = 1e-8`). -/
def defaultCmcVals : PriceMap :=
  [("BTC", 1 / 100000000), ("USD", 1 / 100), ("EUR", 1 / 100),
   ("GBP", 1 / 100), ("CNY", 1 / 100), ("AUD", 1 / 100)]

/-- Startup load of `price_info.txt` (explorebis.py lines 139-147).  The
argument is the parse result of the file: `none` models the file missing or
its JSON load raising.  Returns the in-memory `cmc_vals` mapping together
with the file contents after the startup code ran (on a parse failure the
defaults are substituted and written back to the file). -/
def startup_cmc_vals (parsed : Option PriceMap) : PriceMap × Option PriceMap :=
  match parsed with
  | some vals => (vals, some vals)
  | none => (defaultCmcVals, some defaultCmcVals)

/-- The node-status payload as fetched by `toolsp.get_no_arg("statusjson")`:
the `uptime` field the code rewrites plus the remaining opaque entries. -/
structure NodeStatusIn where
  uptime : Int
  rest : List (String × String)
deriving DecidableEq, Repr

/-- The node-status payload as published on the `my_status` topic, with
`uptime` replaced by its human-readable rendering. -/
structure NodeStatusOut where
  uptime : String
  rest : List (String × String)
deriving DecidableEq, Repr

/-- Embedding of `get_status_info()` (explorebis.py lines 298-315).
`displayTime` stands for the external `toolsp.display_time`; `fetched =
none` models `toolsp.get_no_arg("statusjson")` raising a
`requests.exceptions.RequestException`.  On success the rewritten payload is
published on `my_status` (`.ok`).  On failure the handler (lines 310-315)
sets `w_uptime = "0"` and then reads the local variable `st` — which was
never assigned, because line 302 raised before binding it — so a `NameError`
escapes `get_status_info` and nothing is published (`.error`). -/
def get_status_info (displayTime : Int → String)
    (fetched : Option NodeStatusIn) : Except String NodeStatusOut :=
  match fetched with
  | some st => .ok ⟨displayTime st.uptime, st.rest⟩
  | none => .error "NameError: name st is not defined"

/-- External fetches a synchronizer iteration can perform for its price and
message data. -/
inductive ExtCall where
  /-- The announcement fetch `toolsp.get_no_arg("annget")` performed inside
  `get_message_info` (line 358). -/
  | annFetch
  /-- The live Coingecko HTTP query `requests.get(t, timeout=10)` performed
  inside `get_cmc_info` when `mystate` is truthy (line 258). -/
  | livePriceFetch
  /-- The local fallback path `cmc_alt`: prices re-derived from the files
  `dump_cmc.txt` and `price_info.txt` (lines 231-245), no external call. -/
  | fileFallback
deriving DecidableEq, Repr

/-- External calls performed by one `get_message_info()` run: it always
fetches the announcement afresh. -/
def get_message_info_calls : List ExtCall := [.annFetch]

/-- External calls performed by one `get_cmc_info(..., mystate, ...)` run:
the live price query happens iff `mystate` (lines 254-288); otherwise the
price is re-derived locally via `cmc_alt`. -/
def get_cmc_info_calls (mystate : Bool) : List ExtCall :=
  if mystate then [.livePriceFetch] else [.fileFallback]

/-- The price/message section of one `main_info` iteration (explorebis.py
lines 456-465): when `count % 60 == 0` the loop calls `get_message_info`
and then `get_cmc_info` with `mystate = True` unless `dev_state`; on every
other iteration it calls `get_message_info` and `get_cmc_info` with
`mystate = False`.  Returns the external calls performed, in order. -/
def priceMessageCalls (count : Nat) (dev_state : Bool) : List ExtCall :=
  if count % 60 == 0 then
    if dev_state then get_message_info_calls ++ get_cmc_info_calls false
    else get_message_info_calls ++ get_cmc_info_calls true
  else
    get_message_info_calls ++ get_cmc_info_calls false

/-- What a `connect` handler run did for the triggering subscriber. -/
inductive ConnectAction where
  /-- Spawned the `main_info` background loop and stored it in `cmc_thread`. -/
  | spawned
  /-- Replayed the cached snapshot (`dump_cmc.txt` price payload, wallet
  servers, `txlist50`) directly to the new subscriber. -/
  | replayed
deriving DecidableEq, Repr

/-- The critical section of `test_connect` (explorebis.py lines 1919-1937),
executed under `thread_lock`: if the shared `cmc_thread` slot is empty, the
`main_info` loop is spawned and the slot filled; otherwise the cached
snapshot is replayed to the subscriber.  The state is whether the slot is
occupied. -/
def test_connect (slotBusy : Bool) : Bool × ConnectAction :=
  if slotBusy then (true, .replayed) else (true, .spawned)

/-- N connect triggers arriving together: `thread_lock` serializes their
critical sections, so their combined effect is the sequential composition of
`test_connect` steps.  Returns the final slot state and the action each
trigger performed, in service order. -/
def runConnects : Nat → Bool → Bool × List ConnectAction
  | 0, slotBusy => (slotBusy, [])
  | n + 1, slotBusy =>
    let first := test_connect slotBusy
    let rest := runConnects n first.1
    (rest.1, first.2 :: rest.2)

/-- Observable state of the `main_info` loop: the iteration counter `count`
(wrapping at 300), whether the `cmc_thread` singleton slot is occupied, and
how many passes of the `while True` body have started. -/
structure LoopState where
  count : Nat
  slotBusy : Bool
  passesRun : Nat
deriving DecidableEq, Repr

/-- One pass of the `while True` body of `main_info` (explorebis.py lines
454-497).  If the body raises (`raises`), the `except` branch logs the
error, clears `cmc_thread` under `thread_lock`, sleeps 10 seconds and then
executes `continue` — the `while` loop proceeds to its next pass.  If the
body completes, `count` advances with wrap at 300 and the loop likewise
proceeds. -/
def main_info_pass (raises : Bool) (s : LoopState) : LoopState :=
  if raises then
    { s with slotBusy := false, passesRun := s.passesRun + 1 }
  else
    { s with count := if s.count == 299 then 0 else s.count + 1,
             passesRun := s.passesRun + 1 }

/-- Running `n` passes of the `main_info` loop, where `raisesAt i` says
whether the body raises on the pass numbered `i`. -/
def main_info_run (raisesAt : Nat → Bool) : Nat → LoopState → LoopState
  | 0, s => s
  | n + 1, s => main_info_run raisesAt n (main_info_pass (raisesAt s.passesRun) s)

/-!
Claim theorems.
-/

/-- C4: checkpoint arithmetic.  For every cycle with stored checkpoint `S`
and observed latest height `L`, the incremental window passed to `updatedb`
is `L - (S - 200)` and the checkpoint stored for the next cycle is `L`; in
particular stored 1000 with latest 1050 gives window 250 and new stored
value 1050. -/
theorem checkpoint_cycle_arithmetic :
    (∀ stored latest : Int,
      checkpointCycle stored latest = (latest - (stored - 200), latest)) ∧
    checkpointCycle 1000 1050 = (250, 1050) := by
  refine ⟨fun stored latest => rfl, by decide⟩

/-- C10: when the persisted price snapshot is missing or unparseable at
process start, the explorer substitutes the fixed default mapping, rewrites
the file with it, and the resulting in-memory mapping is defined on every
supported currency key (BTC, USD, EUR, GBP, CNY, AUD). -/
theorem startup_price_defaults :
    startup_cmc_vals none = (defaultCmcVals, some defaultCmcVals) ∧
    supportedCurrencies.all
      (fun c => ((startup_cmc_vals none).1.lookup c).isSome) = true := by
  exact ⟨rfl, by decide⟩

/-- C7: evaluation of `get_status_info` at the failing input.  When the
status fetch raises (node unreachable or timed out), the `except` handler
reads the unbound local `st`, so a `NameError` escapes the function and the
last-known values are not published — contradicting the claim that every
failed live fetch is recovered locally with no exception propagating. -/
theorem status_fetch_failure_raises :
    get_status_info (fun _ => "0") none =
      .error "NameError: name st is not defined" := rfl

/-- C2 counterexample: a full rebuild whose ledger open fails does not
retain the previous table contents — `init_tools_db` has already dropped
and recreated the store before the ledger source is opened, so the previous
richlist row is lost. -/
theorem retention_full_rebuild_counterexample :
    updatedbFallible 1 true ⟨[], 0, fun _ => none⟩ 0
        ⟨[⟨"a1", 5, ""⟩], []⟩ (some CycleFailure.ledgerOpen)
      ≠ ⟨[⟨"a1", 5, ""⟩], []⟩ := by
  decide

/-- C2 (amended): an incremental cycle hit by a cycle-fatal failure —
ledger source unopenable, or aggregate store unopenable or unwritable (the
transaction is rolled back) — leaves both aggregate tables exactly as they
were; but the failure is not retried at the next schedule: the loop body of
`buildtoolsdb` has no exception handler, so the exception propagates out of
the `while True` loop and the process exits.  (A full rebuild instead
empties the store before opening the ledger, so its failed cycles lose the
previous tables — see the counterexample.) -/
theorem incremental_retention_on_failure (bis_limit : ℚ) (ledger : LedgerView)
    (stored : Int) (db : ToolsDb) (f : CycleFailure) :
    (buildtoolsdb_pass bis_limit ledger stored db (some f)).db = db ∧
    (buildtoolsdb_pass bis_limit ledger stored db (some f)).fate
      = LoopFate.processExits := by
  cases f <;> exact ⟨rfl, rfl⟩

/-- C6 counterexample: with the loop body raising on its first pass, the
`main_info` loop still begins a second pass with no external trigger — the
`except` branch ends in `continue`, so the loop resumes iterating by
itself, contradicting the claim that it stops after an unhandled
exception. -/
theorem loop_self_resume_counterexample :
    (fun i => i == 0) 0 = true ∧
    (main_info_run (fun i => i == 0) 2 ⟨0, true, 0⟩).passesRun = 2 := by
  decide

/-- C6 (amended): on an unhandled exception the `main_info` loop logs,
releases the singleton slot (`cmc_thread = None`), sleeps the fixed
backoff, and then resumes iterating by itself (`continue`): every scheduled
pass executes whatever the exception schedule, and a raising pass leaves
the slot released. -/
theorem loop_error_releases_slot_and_resumes (raisesAt : Nat → Bool)
    (n : Nat) (s : LoopState) :
    (main_info_run raisesAt n s).passesRun = s.passesRun + n ∧
    (∀ s' : LoopState, (main_info_pass true s').slotBusy = false) := by
  refine ⟨?_, fun s' => rfl⟩
  induction n generalizing s with
  | zero => rfl
  | succ n ih =>
    show (main_info_run raisesAt n (main_info_pass (raisesAt s.passesRun) s)).passesRun
        = s.passesRun + (n + 1)
    rw [ih]
    have hpass : (main_info_pass (raisesAt s.passesRun) s).passesRun = s.passesRun + 1 := by
      unfold main_info_pass
      split <;> rfl
    rw [hpass]
    omega

/-- C8 counterexample: iteration `count = 1` is not a 60th iteration, yet
the loop still performs a fresh external announcement fetch there (both
branches of `main_info` call `get_message_info`), contradicting the claim
that the message is re-fetched only on every 60th iteration. -/
theorem message_refetch_counterexample :
    1 % 60 ≠ 0 ∧ ExtCall.annFetch ∈ priceMessageCalls 1 false := by
  decide

/-- C8 (amended): the announcement/message text is freshly fetched on every
iteration of the loop; only the live price query is restricted to the
iterations with `count % 60 == 0`, and it is suppressed entirely in dev
mode — all other iterations re-derive the price from the persisted
fallback files. -/
theorem price_message_fetch_schedule (count : Nat) (dev_state : Bool) :
    ExtCall.annFetch ∈ priceMessageCalls count dev_state ∧
    (ExtCall.livePriceFetch ∈ priceMessageCalls count dev_state ↔
      (count % 60 = 0 ∧ dev_state = false)) := by
  unfold priceMessageCalls get_message_info_calls get_cmc_info_calls
  rcases eq_or_ne (count % 60) 0 with h | h <;> cases dev_state <;>
    simp [h]

/-- With the `cmc_thread` slot already occupied, every further serialized
trigger replays the cache and the slot stays occupied. -/
theorem runConnects_busy (n : Nat) :
    runConnects n true = (true, List.replicate n ConnectAction.replayed) := by
  induction n with
  | zero => rfl
  | succ n ih =>
    show (let rest := runConnects n true
          (rest.1, ConnectAction.replayed :: rest.2)) = _
    rw [ih]
    rfl

/-- C5: singleton start.  When `n ≥ 1` connect triggers arrive together
with the loop not yet running, the `thread_lock`-serialized `test_connect`
critical sections spawn the `main_info` loop exactly once; each of the
other `n - 1` triggers instead receives an immediate cache replay. -/
theorem singleton_start (n : Nat) (h : 1 ≤ n) :
    ((runConnects n false).2.count ConnectAction.spawned = 1) ∧
    ((runConnects n false).2.count ConnectAction.replayed = n - 1) := by
  obtain ⟨m, rfl⟩ : ∃ m, n = m + 1 := ⟨n - 1, (Nat.succ_pred_eq_of_pos h).symm⟩
  have hstep : runConnects (m + 1) false
      = (true, ConnectAction.spawned :: List.replicate m ConnectAction.replayed) := by
    show (let rest := runConnects m true
          (rest.1, ConnectAction.spawned :: rest.2)) = _
    rw [runConnects_busy]
  rw [hstep]
  constructor
  · simp [List.count_cons, List.count_replicate]
  · simp [List.count_cons, List.count_replicate]

/-- Witness for C5 at three concurrent triggers. -/
theorem singleton_start_witness :
    1 ≤ 3 ∧
    (((runConnects 3 false).2.count ConnectAction.spawned = 1) ∧
     ((runConnects 3 false).2.count ConnectAction.replayed = 3 - 1)) :=
  ⟨by decide, singleton_start 3 (by decide)⟩

/-- Every rich row gathered by the `updatedb` loop carries the balance the
fetch returned, which passed the `balance > bis_limit` test, and its key is
one of the processed addresses. -/
theorem buildRows_rich_mem (bis_limit : ℚ) (refresh : Addr → Option AddrStats) :
    ∀ (addrs : List Addr) (r : RichRow), r ∈ (buildRows bis_limit refresh addrs).1 →
      bis_limit < r.balance ∧ r.address ∈ addrs := by
  intro addrs
  induction addrs with
  | nil => intro r h; simp [buildRows] at h
  | cons a rest ih =>
    intro r h
    unfold buildRows at h
    cases hx : refresh a with
    | none =>
      rw [hx] at h
      exact ⟨(ih r h).1, List.mem_cons_of_mem a (ih r h).2⟩
    | some record =>
      rw [hx] at h
      dsimp only at h
      split at h
      · rcases List.mem_cons.mp h with hr | hr
        · subst hr
          exact ⟨by assumption, List.mem_cons_self a rest⟩
        · exact ⟨(ih r hr).1, List.mem_cons_of_mem a (ih r hr).2⟩
      · exact ⟨(ih r h).1, List.mem_cons_of_mem a (ih r h).2⟩

/-- Every miner row gathered by the `updatedb` loop carries the reward the
fetch returned, which passed the `reward > 0` test, and its key is one of
the processed addresses. -/
theorem buildRows_miner_mem (bis_limit : ℚ) (refresh : Addr → Option AddrStats) :
    ∀ (addrs : List Addr) (m : MinerRow), m ∈ (buildRows bis_limit refresh addrs).2 →
      0 < m.treward ∧ m.address ∈ addrs := by
  intro addrs
  induction addrs with
  | nil => intro m h; simp [buildRows] at h
  | cons a rest ih =>
    intro m h
    unfold buildRows at h
    cases hx : refresh a with
    | none =>
      rw [hx] at h
      exact ⟨(ih m h).1, List.mem_cons_of_mem a (ih m h).2⟩
    | some record =>
      rw [hx] at h
      dsimp only at h
      split at h
      · rcases List.mem_cons.mp h with hm | hm
        · subst hm
          exact ⟨by assumption, List.mem_cons_self a rest⟩
        · exact ⟨(ih m hm).1, List.mem_cons_of_mem a (ih m hm).2⟩
      · exact ⟨(ih m h).1, List.mem_cons_of_mem a (ih m h).2⟩

/-- Rows surviving the delete phase were already in the table. -/
theorem mem_of_mem_richDeleteAll (addrs : List Addr) :
    ∀ (t : List RichRow) (r : RichRow), r ∈ richDeleteAll t addrs → r ∈ t := by
  induction addrs with
  | nil => intro t r h; exact h
  | cons a as ih =>
    intro t r h
    have : r ∈ richDelete t a := ih (richDelete t a) r h
    exact (List.mem_filter.mp this).1

/-- Rows surviving the delete phase were already in the table. -/
theorem mem_of_mem_minerDeleteAll (addrs : List Addr) :
    ∀ (t : List MinerRow) (m : MinerRow), m ∈ minerDeleteAll t addrs → m ∈ t := by
  induction addrs with
  | nil => intro t m h; exact h
  | cons a as ih =>
    intro t m h
    have : m ∈ minerDelete t a := ih (minerDelete t a) m h
    exact (List.mem_filter.mp this).1

/-- An `INSERT OR IGNORE` batch preserves any per-row predicate satisfied
by the old table and by the inserted rows. -/
theorem richInsertAll_pred (P : RichRow → Prop) :
    ∀ (rows t : List RichRow), (∀ r ∈ t, P r) → (∀ r ∈ rows, P r) →
      ∀ r ∈ richInsertAll t rows, P r := by
  intro rows
  induction rows with
  | nil => intro t ht _ r hr; exact ht r hr
  | cons x xs ih =>
    intro t ht hrows r hr
    have hx : P x := hrows x (List.mem_cons_self x xs)
    have hxs : ∀ r ∈ xs, P r := fun r h => hrows r (List.mem_cons_of_mem x h)
    have ht' : ∀ r ∈ richInsertIgnore t x, P r := by
      intro r h
      unfold richInsertIgnore at h
      split at h
      · exact ht r h
      · rcases List.mem_append.mp h with h | h
        · exact ht r h
        · rw [List.mem_singleton.mp h]; exact hx
    exact ih (richInsertIgnore t x) ht' hxs r hr

/-- An `INSERT OR IGNORE` batch preserves any per-row predicate satisfied
by the old table and by the inserted rows. -/
theorem minerInsertAll_pred (P : MinerRow → Prop) :
    ∀ (rows t : List MinerRow), (∀ m ∈ t, P m) → (∀ m ∈ rows, P m) →
      ∀ m ∈ minerInsertAll t rows, P m := by
  intro rows
  induction rows with
  | nil => intro t ht _ m hm; exact ht m hm
  | cons x xs ih =>
    intro t ht hrows m hm
    have hx : P x := hrows x (List.mem_cons_self x xs)
    have hxs : ∀ m ∈ xs, P m := fun m h => hrows m (List.mem_cons_of_mem x h)
    have ht' : ∀ m ∈ minerInsertIgnore t x, P m := by
      intro m h
      unfold minerInsertIgnore at h
      split at h
      · exact ht m h
      · rcases List.mem_append.mp h with h | h
        · exact ht m h
        · rw [List.mem_singleton.mp h]; exact hx
    exact ih (minerInsertIgnore t x) ht' hxs m hm

/-- The table invariant of the aggregate store: every richlist row has a
balance strictly above the configured threshold and every minerlist row a
strictly positive total reward. -/
def dbInvariant (bis_limit : ℚ) (db : ToolsDb) : Prop :=
  (∀ r ∈ db.richlist, bis_limit < r.balance) ∧
  (∀ m ∈ db.minerlist, 0 < m.treward)

instance (bis_limit : ℚ) (db : ToolsDb) : Decidable (dbInvariant bis_limit db) := by
  unfold dbInvariant
  infer_instance

/-- C1: after any completed full or incremental refresh cycle, an address
is in richlist only with its fetched balance, strictly greater than the
configured threshold, and in minerlist only with its fetched total reward,
strictly greater than 0 — provided the tables already satisfied this before
the cycle (full rebuilds establish it from any prior state, since the store
is recreated empty). -/
theorem updatedb_preserves_invariant (bis_limit : ℚ) (do_full : Bool)
    (ledger : LedgerView) (last_block : Int) (db : ToolsDb)
    (h : dbInvariant bis_limit db) :
    dbInvariant bis_limit (updatedb bis_limit do_full ledger last_block db).2 := by
  cases do_full with
  | true =>
    by_cases h1 : gather_all_addresses ledger.txs = []
    · have hred : (updatedb bis_limit true ledger last_block db).2 = ToolsDb.empty := by
        simp [updatedb, h1]
      rw [hred]
      exact ⟨fun r hr => absurd hr (List.not_mem_nil r),
             fun m hm => absurd hm (List.not_mem_nil m)⟩
    · have hred : (updatedb bis_limit true ledger last_block db).2 =
          ⟨richInsertAll ToolsDb.empty.richlist
             (buildRows bis_limit ledger.refresh (gather_all_addresses ledger.txs)).1,
           minerInsertAll ToolsDb.empty.minerlist
             (buildRows bis_limit ledger.refresh (gather_all_addresses ledger.txs)).2⟩ := by
        simp [updatedb, h1]
      rw [hred]
      refine ⟨?_, ?_⟩
      · intro r hr
        have hmem : r ∈ (buildRows bis_limit ledger.refresh
            (gather_all_addresses ledger.txs)).1 := by
          refine richInsertAll_pred
            (fun r => r ∈ (buildRows bis_limit ledger.refresh
              (gather_all_addresses ledger.txs)).1) _ _ ?_ (fun r h' => h') r hr
          intro r h'
          simp [ToolsDb.empty] at h'
        exact (buildRows_rich_mem bis_limit ledger.refresh _ r hmem).1
      · intro m hm
        have hmem : m ∈ (buildRows bis_limit ledger.refresh
            (gather_all_addresses ledger.txs)).2 := by
          refine minerInsertAll_pred
            (fun m => m ∈ (buildRows bis_limit ledger.refresh
              (gather_all_addresses ledger.txs)).2) _ _ ?_ (fun m h' => h') m hm
          intro m h'
          simp [ToolsDb.empty] at h'
        exact (buildRows_miner_mem bis_limit ledger.refresh _ m hmem).1
  | false =>
    by_cases h1 : block_limit ledger.latest last_block ≤ 0
    · have hred : (updatedb bis_limit false ledger last_block db).2 = db := by
        simp [updatedb, h1]
      rw [hred]; exact h
    · by_cases h2 : gather_delta_addresses ledger.txs
          (block_limit ledger.latest last_block).toNat = []
      · have hred : (updatedb bis_limit false ledger last_block db).2 = db := by
          simp [updatedb, h1, h2]
        rw [hred]; exact h
      · have hred : (updatedb bis_limit false ledger last_block db).2 =
            applyDelta bis_limit ledger.refresh
              (gather_delta_addresses ledger.txs
                (block_limit ledger.latest last_block).toNat) db := by
          simp [updatedb, h1, h2]
        rw [hred]
        unfold applyDelta
        refine ⟨?_, ?_⟩
        · intro r hr
          refine richInsertAll_pred (fun r => bis_limit < r.balance) _ _ ?_ ?_ r hr
          · intro r h'
            exact h.1 r (mem_of_mem_richDeleteAll _ _ r h')
          · intro r h'
            exact (buildRows_rich_mem bis_limit ledger.refresh _ r h').1
        · intro m hm
          refine minerInsertAll_pred (fun m => 0 < m.treward) _ _ ?_ ?_ m hm
          · intro m h'
            exact h.2 m (mem_of_mem_minerDeleteAll _ _ m h')
          · intro m h'
            exact (buildRows_miner_mem bis_limit ledger.refresh _ m h').1

/-- Batch deletion is one filter over the table. -/
theorem richDeleteAll_eq_filter (addrs : List Addr) :
    ∀ t : List RichRow,
      richDeleteAll t addrs = t.filter (fun r => !(addrs.contains r.address)) := by
  induction addrs with
  | nil => intro t; simp [richDeleteAll]
  | cons a as ih =>
    intro t
    show richDeleteAll (richDelete t a) as = _
    rw [ih, richDelete, List.filter_filter]
    simp only [List.contains_cons, Bool.not_or]
    apply List.filter_congr
    intro r _
    rw [Bool.and_comm]

/-- Batch deletion is one filter over the table. -/
theorem minerDeleteAll_eq_filter (addrs : List Addr) :
    ∀ t : List MinerRow,
      minerDeleteAll t addrs = t.filter (fun m => !(addrs.contains m.address)) := by
  induction addrs with
  | nil => intro t; simp [minerDeleteAll]
  | cons a as ih =>
    intro t
    show minerDeleteAll (minerDelete t a) as = _
    rw [ih, minerDelete, List.filter_filter]
    simp only [List.contains_cons, Bool.not_or]
    apply List.filter_congr
    intro m _
    rw [Bool.and_comm]

/-- Deleting the touched addresses twice is the same as deleting them once. -/
theorem richDeleteAll_idem (addrs : List Addr) (t : List RichRow) :
    richDeleteAll (richDeleteAll t addrs) addrs = richDeleteAll t addrs := by
  simp [richDeleteAll_eq_filter, List.filter_filter]

/-- Deleting the touched addresses twice is the same as deleting them once. -/
theorem minerDeleteAll_idem (addrs : List Addr) (t : List MinerRow) :
    minerDeleteAll (minerDeleteAll t addrs) addrs = minerDeleteAll t addrs := by
  simp [minerDeleteAll_eq_filter, List.filter_filter]

/-- Deleting the touched addresses after inserting rows keyed by touched
addresses is the same as deleting from the original table: the deletes
cancel exactly the rows the insert phase contributed. -/
theorem richDeleteAll_insertAll (addrs : List Addr) :
    ∀ (rows t : List RichRow), (∀ r ∈ rows, r.address ∈ addrs) →
      richDeleteAll (richInsertAll t rows) addrs = richDeleteAll t addrs := by
  intro rows
  induction rows with
  | nil => intro t _; rfl
  | cons x xs ih =>
    intro t hk
    show richDeleteAll (richInsertAll (richInsertIgnore t x) xs) addrs = _
    rw [ih (richInsertIgnore t x) (fun r h => hk r (List.mem_cons_of_mem x h))]
    unfold richInsertIgnore
    split
    · rfl
    · rw [richDeleteAll_eq_filter, richDeleteAll_eq_filter, List.filter_append]
      have hx : x.address ∈ addrs := hk x (List.mem_cons_self x xs)
      simp [hx]

/-- Deleting the touched addresses after inserting rows keyed by touched
addresses is the same as deleting from the original table. -/
theorem minerDeleteAll_insertAll (addrs : List Addr) :
    ∀ (rows t : List MinerRow), (∀ m ∈ rows, m.address ∈ addrs) →
      minerDeleteAll (minerInsertAll t rows) addrs = minerDeleteAll t addrs := by
  intro rows
  induction rows with
  | nil => intro t _; rfl
  | cons x xs ih =>
    intro t hk
    show minerDeleteAll (minerInsertAll (minerInsertIgnore t x) xs) addrs = _
    rw [ih (minerInsertIgnore t x) (fun m h => hk m (List.mem_cons_of_mem x h))]
    unfold minerInsertIgnore
    split
    · rfl
    · rw [minerDeleteAll_eq_filter, minerDeleteAll_eq_filter, List.filter_append]
      have hx : x.address ∈ addrs := hk x (List.mem_cons_self x xs)
      simp [hx]

/-- C3: incremental application is idempotent.  For a fixed ledger state
(fixed per-address statistics fetch) and a fixed touched-address delta,
running the delete-then-insert-or-ignore write phase twice leaves richlist
and minerlist exactly as running it once: the second run's deletes remove
precisely the rows the first run inserted, and the rebuilt rows are the
same. -/
theorem incremental_idempotent (bis_limit : ℚ)
    (refresh : Addr → Option AddrStats) (addresses : List Addr) (db : ToolsDb) :
    applyDelta bis_limit refresh addresses
        (applyDelta bis_limit refresh addresses db)
      = applyDelta bis_limit refresh addresses db := by
  unfold applyDelta
  have hrich : ∀ r ∈ (buildRows bis_limit refresh addresses).1,
      r.address ∈ addresses :=
    fun r h => (buildRows_rich_mem bis_limit refresh addresses r h).2
  have hminer : ∀ m ∈ (buildRows bis_limit refresh addresses).2,
      m.address ∈ addresses :=
    fun m h => (buildRows_miner_mem bis_limit refresh addresses m h).2
  refine congrArg₂ ToolsDb.mk ?_ ?_
  · rw [richDeleteAll_insertAll addresses _ _ hrich, richDeleteAll_idem]
  · rw [minerDeleteAll_insertAll addresses _ _ hminer, minerDeleteAll_idem]

/-- Witness for C1: a concrete incremental cycle over a one-transaction
window, starting from a table that satisfies the invariant. -/
theorem updatedb_preserves_invariant_witness :
    dbInvariant 1 ⟨[⟨"a0", 5, ""⟩], []⟩ ∧
    dbInvariant 1 (updatedb 1 false
      ⟨[mkTx "s1" "r1"], 10, fun _ => some ⟨0, 0, 3, 0, 7, 4, 2, 3, ""⟩⟩ 0
      ⟨[⟨"a0", 5, ""⟩], []⟩).2 :=
  ⟨by decide, updatedb_preserves_invariant 1 false
    ⟨[mkTx "s1" "r1"], 10, fun _ => some ⟨0, 0, 3, 0, 7, 4, 2, 3, ""⟩⟩ 0
    ⟨[⟨"a0", 5, ""⟩], []⟩ (by decide)⟩

/-- Membership in the seen-set insertion. -/
theorem mem_insertAddr (seen : List Addr) (a b : Addr) :
    a ∈ insertAddr seen b ↔ a ∈ seen ∨ a = b := by
  unfold insertAddr
  split
  · rename_i hb
    constructor
    · exact Or.inl
    · rintro (h | rfl)
      · exact h
      · exact hb
  · simp [List.mem_append]

/-- Insertion into the seen set keeps it duplicate-free. -/
theorem nodup_insertAddr (seen : List Addr) (b : Addr) (h : seen.Nodup) :
    (insertAddr seen b).Nodup := by
  unfold insertAddr
  split
  · exact h
  · rename_i hb
    simp [List.nodup_append, h, hb]

/-- Membership after processing one transaction row of the
`gather_delta_addresses` loop. -/
theorem mem_addTouched (seen : List Addr) (row : Tx) (a : Addr) :
    a ∈ addTouched seen row ↔
      a ∈ seen ∨ (row.address = a ∧ a ≠ "" ∧ lowerString a ∉ pseudo_sinks) ∨
      (row.recipient = a ∧ a ≠ "") := by
  unfold addTouched
  split_ifs with h1 h2 h2
  · rw [mem_insertAddr, mem_insertAddr]
    constructor
    · rintro ((h | rfl) | rfl)
      · exact Or.inl h
      · exact Or.inr (Or.inl ⟨rfl, h1.1, h1.2⟩)
      · exact Or.inr (Or.inr ⟨rfl, h2⟩)
    · rintro (h | ⟨rfl, hne, hns⟩ | ⟨rfl, hne⟩)
      · exact Or.inl (Or.inl h)
      · exact Or.inl (Or.inr rfl)
      · exact Or.inr rfl
  · rw [mem_insertAddr]
    constructor
    · rintro (h | rfl)
      · exact Or.inl h
      · exact Or.inr (Or.inl ⟨rfl, h1.1, h1.2⟩)
    · rintro (h | ⟨rfl, hne, hns⟩ | ⟨rfl, hne⟩)
      · exact Or.inl h
      · exact Or.inr rfl
      · exact absurd (not_ne_iff.mp h2) hne
  · rw [mem_insertAddr]
    constructor
    · rintro (h | rfl)
      · exact Or.inl h
      · exact Or.inr (Or.inr ⟨rfl, h2⟩)
    · rintro (h | ⟨rfl, hne, hns⟩ | ⟨rfl, hne⟩)
      · exact Or.inl h
      · exact absurd ⟨hne, hns⟩ h1
      · exact Or.inr rfl
  · constructor
    · exact Or.inl
    · rintro (h | ⟨rfl, hne, hns⟩ | ⟨rfl, hne⟩)
      · exact h
      · exact absurd ⟨hne, hns⟩ h1
      · exact absurd (not_ne_iff.mp h2) hne

/-- Processing one transaction row keeps the seen set duplicate-free. -/
theorem nodup_addTouched (seen : List Addr) (row : Tx) (h : seen.Nodup) :
    (addTouched seen row).Nodup := by
  unfold addTouched
  split_ifs with h1 h2 h2
  · exact nodup_insertAddr _ _ (nodup_insertAddr _ _ h)
  · exact nodup_insertAddr _ _ h
  · exact nodup_insertAddr _ _ h
  · exact h

/-- Characterization of the whole `gather_delta_addresses` fold. -/
theorem mem_foldl_addTouched (l : List Tx) :
    ∀ (seen : List Addr) (a : Addr),
      a ∈ l.foldl addTouched seen ↔
        a ∈ seen ∨
        (∃ tx ∈ l, tx.address = a ∧ a ≠ "" ∧ lowerString a ∉ pseudo_sinks) ∨
        (∃ tx ∈ l, tx.recipient = a ∧ a ≠ "") := by
  induction l with
  | nil => intro seen a; simp
  | cons row rest ih =>
    intro seen a
    rw [List.foldl_cons, ih, mem_addTouched]
    simp only [List.exists_mem_cons_iff]
    itauto

/-- The `gather_delta_addresses` fold keeps the seen set duplicate-free. -/
theorem nodup_foldl_addTouched (l : List Tx) :
    ∀ seen : List Addr, seen.Nodup → (l.foldl addTouched seen).Nodup := by
  induction l with
  | nil => intro seen h; exact h
  | cons row rest ih => intro seen h; exact ih _ (nodup_addTouched seen row h)

/-- Touched-address predicate as claim C9 words it, stated here only for
comparison against the source-derived `gather_delta_addresses`: every
recipient except the pseudo-account block-reward/hypernode-payout sink
names, plus every sender. -/
def claimedTouched (txs : List Tx) (limit : Nat) (a : Addr) : Prop :=
  (∃ tx ∈ txs.take limit, tx.recipient = a ∧ lowerString a ∉ pseudo_sinks) ∨
  (∃ tx ∈ txs.take limit, tx.address = a)

instance (txs : List Tx) (limit : Nat) (a : Addr) :
    Decidable (claimedTouched txs limit a) := by
  unfold claimedTouched
  infer_instance

/-- C9 counterexample: a hypernode-payout transaction, whose sender column
holds the pseudo-account name.  The claim's set contains the pseudo-account
(it is a sender, and the claim filters only recipients), but the code
applies the filter to the sender column (`row[2]`) and keeps every
recipient, so the pseudo-account is absent from the computed delta set. -/
theorem touched_addresses_counterexample :
    claimedTouched [mkTx "Hypernode Payouts" "abc"] 1 "Hypernode Payouts" ∧
    "Hypernode Payouts" ∉ gather_delta_addresses [mkTx "Hypernode Payouts" "abc"] 1 := by
  decide

/-- C9 (amended): the touched-address set of an incremental refresh with
window `W` is the duplicate-free set collected from the `W` most recent
transactions containing exactly: every sender except empty senders and
except the block-reward/hypernode-payout pseudo-account sink names
(compared case-insensitively), plus every non-empty recipient. -/
theorem gather_delta_addresses_spec (txs : List Tx) (limit : Nat) :
    (gather_delta_addresses txs limit).Nodup ∧
    ∀ a : Addr, a ∈ gather_delta_addresses txs limit ↔
      ((∃ tx ∈ txs.take limit, tx.address = a ∧ a ≠ "" ∧ lowerString a ∉ pseudo_sinks) ∨
       (∃ tx ∈ txs.take limit, tx.recipient = a ∧ a ≠ "")) := by
  constructor
  · exact nodup_foldl_addTouched _ _ List.nodup_nil
  · intro a
    unfold gather_delta_addresses
    rw [mem_foldl_addTouched]
    simp

end BisExplorer
